import Mathlib

/-!
Verification development for the HerbautArbre genealogy viewer.

The definitions below are a shallow embedding of the core of the
repository:

* src/src/tree/layout.js   — graph builder and layout engine
* src/src/tree/renderer.js — viewport / focus controller
* src/src/ui/search.js     — search matching

JavaScript numbers are modelled as rationals (the properties proved here
only involve exact arithmetic, comparisons and clamping).  The external
d3 geometry primitives (d3.cluster, d3.tree) and the transcendental
Math.cos / Math.sin / Math.PI values are deterministic external
functions; they are taken as explicit parameters of the layout, so every
definition stays executable.  The Intl.Collator used for name ordering
is likewise a parameter (called coll below); frCollate is a concrete
executable model of it for the French alphabet, used for concrete runs.
-/

namespace HerbautArbre

/-- An individual record, with the fields of the data model that the
graph builder reads (layout.js).  The generation hint is kept as the raw
textual value, as in the JSON data; layout.js parses it with
Number.parseInt. -/
structure Person where
  id : String
  name : Option String := none
  gender : Option String := none
  generation : Option String := none
deriving Repr, DecidableEq

/-- A relationship record.  rtype is the field called type in the JSON
data. -/
structure Relationship where
  source : String
  target : String
  rtype : String
  context : Option String := none
deriving Repr, DecidableEq

/-- Value of a decimal digit character, or none. -/
def digitVal (c : Char) : Option Nat :=
  if c.toNat ≥ 48 && c.toNat ≤ 57 then some (c.toNat - 48) else none

/-- Value of a nonempty list of decimal digits (the longest digit prefix
is taken by jsParseInt below). -/
def digitsVal (cs : List Char) : Option Nat :=
  match cs.map digitVal |>.takeWhile Option.isSome with
  | [] => none
  | ds => some (ds.foldl (fun acc d => acc * 10 + d.getD 0) 0)

/-- Model of JavaScript Number.parseInt(s, 10): skip leading
whitespace, read an optional sign and then the longest digit prefix;
NaN (no digits) becomes none. -/
def jsParseInt (s : String) : Option Int :=
  let cs := s.toList.dropWhile (fun c => c.isWhitespace)
  match cs with
  | '-' :: rest => (digitsVal rest).map (fun n => -(n : Int))
  | '+' :: rest => (digitsVal rest).map (fun n => (n : Int))
  | rest => (digitsVal rest).map (fun n => (n : Int))

/-- layout.js parseGeneration: null stays null, otherwise parseInt with
NaN turned into null. -/
def parseGeneration (rawValue : Option String) : Option Int :=
  rawValue.bind jsParseInt

/-- Label used by layout.js compareNodes:
a.person?.name ?? a.person?.id ?? a.id.  Graph nodes always carry their
person (the virtual root is never compared), so this is name ?? id. -/
def personLabel (p : Person) : String :=
  p.name.getD p.id

/-- layout.js selectPrimaryParent gender test: a falsy gender (absent or
empty) is not male; otherwise lower-case comparison with m / male. -/
def isMaleGender : Option String → Bool
  | none => false
  | some g => g != "" && (g.toLower == "m" || g.toLower == "male")

/-- layout.js compareNodes, parametric in the collator.  Returns the
comparator value as an integer: generation difference when both parse
and differ, -1 / 1 to put parseable generations first, collator result
otherwise. -/
def compareNodes (coll : String → String → Int) (a b : Person) : Int :=
  match parseGeneration a.generation, parseGeneration b.generation with
  | some x, some y => if x ≠ y then x - y else coll (personLabel a) (personLabel b)
  | some _, none => -1
  | none, some _ => 1
  | none, none => coll (personLabel a) (personLabel b)

/-- One entry of parentRelationsByChild in layout.js createGraph: the
parent-child relationship record together with the resolved parent
node. -/
structure PCEntry where
  relation : Relationship
  parentNode : Person
deriving Repr, DecidableEq

/-- Boolean form of the generation comparator used to rank candidate
parents in selectPrimaryParent (le means comparator value at most 0:
missing generations sort last, both missing compare equal). -/
def genLeB : Option Int → Option Int → Bool
  | none, none => true
  | none, some _ => false
  | some _, none => true
  | some x, some y => decide (x ≤ y)

/-- Stable sort of the candidate-parent entries by compareNodes on the
parent, as done on validEntries in createGraph.  JavaScript
Array.prototype.sort is a stable sort, and for a consistent comparator
the stable sorted permutation is unique, so the (stable) insertion sort
models it. -/
def sortEntries (coll : String → String → Int) (es : List PCEntry) : List PCEntry :=
  List.insertionSort (fun a b => compareNodes coll a.parentNode b.parentNode ≤ 0) es

/-- layout.js selectPrimaryParent: first male entry wins; otherwise the
entries are stably re-sorted by parseable generation (missing last) and
the head is taken, falling back to the first entry. -/
def selectPrimaryParent (entries : List PCEntry) : Option Person :=
  match entries with
  | [] => none
  | e0 :: _ =>
    match entries.find? (fun e => isMaleGender e.parentNode.gender) with
    | some m => some m.parentNode
    | none =>
      let ranked := List.insertionSort
        (fun a b => genLeB (parseGeneration a.parentNode.generation)
          (parseGeneration b.parentNode.generation) = true) entries
      some ((ranked.head?.getD e0).parentNode)

/-- The node map built by ensureNode over the individuals array: a
person with a falsy (empty) id is skipped, and the first person seen for
an id wins. -/
def collectPeople (individuals : List Person) : List Person :=
  individuals.foldl
    (fun acc p => if p.id = "" ∨ acc.any (fun q => q.id = p.id) then acc else acc ++ [p]) []

/-- nodesById.get modelled over the deduplicated people list. -/
def lookupPerson (people : List Person) (i : String) : Option Person :=
  people.find? (fun p => p.id = i)

/-- The person attached to a node id (total version; ids produced by the
builder always resolve, and the default only supplies the id itself,
matching the a.id fallback of compareNodes). -/
def personForId (people : List Person) (i : String) : Person :=
  (lookupPerson people i).getD { id := i }

/-- compareNodes lifted to node ids through the people list. -/
def compareIds (coll : String → String → Int) (people : List Person) (i j : String) : Int :=
  compareNodes coll (personForId people i) (personForId people j)

/-- Insertion-ordered grouping map parentRelationsByChild: push an entry
onto the list of its child id, appending a new key at the end on first
occurrence (JavaScript Map insertion order). -/
def addToGroups : List (String × List PCEntry) → String → PCEntry → List (String × List PCEntry)
  | [], cid, e => [(cid, [e])]
  | (k, es) :: rest, cid, e =>
    if k = cid then (k, es ++ [e]) :: rest
    else (k, es) :: addToGroups rest cid e

/-- Accumulator of the relationships.forEach pass of createGraph. -/
structure IngestAcc where
  groups : List (String × List PCEntry)
  additional : List Relationship
deriving Repr, DecidableEq

/-- One step of the relationships.forEach pass: relationships with a
falsy endpoint or an unresolvable endpoint are dropped; parent-child
relationships are grouped by child, the rest are kept as additional
relationships. -/
def ingestRelation (people : List Person) (acc : IngestAcc) (r : Relationship) : IngestAcc :=
  if r.source = "" ∨ r.target = "" then acc
  else
    match lookupPerson people r.source, lookupPerson people r.target with
    | some sp, some _ =>
      if r.rtype = "parent-child" then
        { acc with groups := addToGroups acc.groups r.target { relation := r, parentNode := sp } }
      else
        { acc with additional := acc.additional ++ [r] }
    | _, _ => acc

/-- The grouped parent-child entries for a given input (independent of
the collator). -/
def parentGroups (individuals : List Person) (relationships : List Relationship) :
    List (String × List PCEntry) :=
  (relationships.foldl (ingestRelation (collectPeople individuals))
    { groups := [], additional := [] }).groups

/-- The non-hierarchical relationships retained for a given input. -/
def additionalRelationshipsOf (individuals : List Person)
    (relationships : List Relationship) : List Relationship :=
  (relationships.foldl (ingestRelation (collectPeople individuals))
    { groups := [], additional := [] }).additional

/-- The secondary relationship created for a demoted candidate parent:
type relationship, context defaulting to secondary-parent. -/
def mkSecondary (childId : String) (e : PCEntry) : Relationship :=
  { source := e.parentNode.id, target := childId, rtype := "relationship",
    context := some (e.relation.context.getD "secondary-parent") }

/-- JavaScript Set.add on the parents set (kept as a duplicate-free
list). -/
def setAdd (l : List String) (x : String) : List String :=
  if x ∈ l then l else l ++ [x]

/-- Mutable state threaded through the parentRelationsByChild.forEach
pass: children and parents of every node id, plus the secondary
relationships produced so far. -/
structure BuildAcc where
  childrenOf : String → List String
  parentsOf : String → List String
  secondaries : List Relationship

/-- One iteration of parentRelationsByChild.forEach in createGraph.  The
entries of a group already hold resolved parent nodes, so the JavaScript
filter on Boolean(entry.parentNode) keeps every entry and is dropped
here.  Parent identity (entry.parentNode === primaryParent) is id
equality because nodesById holds one node object per id. -/
def processGroup (people : List Person) (coll : String → String → Int)
    (acc : BuildAcc) (g : String × List PCEntry) : BuildAcc :=
  if (lookupPerson people g.1).isNone then acc
  else
    let validEntries := g.2
    if validEntries = [] then acc
    else
      let sorted := sortEntries coll validEntries
      match selectPrimaryParent sorted with
      | none => acc
      | some pp =>
        let acc1 :=
          if g.1 ∈ acc.childrenOf pp.id then acc
          else
            { acc with
              childrenOf := fun i =>
                if i = pp.id then acc.childrenOf i ++ [g.1] else acc.childrenOf i,
              parentsOf := fun i =>
                if i = g.1 then setAdd (acc.parentsOf i) pp.id else acc.parentsOf i }
        { acc1 with
          secondaries := acc1.secondaries ++
            (sorted.filter (fun e => e.parentNode.id != pp.id)).map (mkSecondary g.1) }

/-- Result of createGraph: the deduplicated people, the derived children
and parents maps, the children of the virtual root (rootIds), and the
retained secondary / additional relationships. -/
structure Graph where
  people : List Person
  childrenOf : String → List String
  parentsOf : String → List String
  rootIds : List String
  secondaryRelationships : List Relationship
  additionalRelationships : List Relationship

/-- layout.js createGraph.  Children lists and the root list are sorted
with compareNodes; roots fall back to every node when no node is
parentless. -/
def createGraph (coll : String → String → Int) (individuals : List Person)
    (relationships : List Relationship) : Graph :=
  let people := collectPeople individuals
  let ing := relationships.foldl (ingestRelation people) { groups := [], additional := [] }
  let acc := ing.groups.foldl (processGroup people coll)
    { childrenOf := fun _ => [], parentsOf := fun _ => [], secondaries := [] }
  let rootsRaw := (people.filter (fun p => acc.parentsOf p.id = [])).map (fun p => p.id)
  let roots := if rootsRaw.isEmpty then people.map (fun p => p.id) else rootsRaw
  { people := people,
    childrenOf := fun i => List.insertionSort
      (fun a b => compareIds coll people a b ≤ 0) (acc.childrenOf i),
    parentsOf := acc.parentsOf,
    rootIds := List.insertionSort (fun a b => compareIds coll people a b ≤ 0) roots,
    secondaryRelationships := acc.secondaries,
    additionalRelationships := ing.additional }

/-- Fold a character to its base lower-case form.  This (with
cmpCharList and frCollate below) is an executable model of the external
Intl.Collator with locale fr, sensitivity base and ignorePunctuation,
restricted to the character repertoire of the data set. -/
def stripAccent (c : Char) : Char :=
  if c ∈ ['à', 'â', 'ä', 'À', 'Â', 'Ä'] then 'a'
  else if c ∈ ['é', 'è', 'ê', 'ë', 'É', 'È', 'Ê', 'Ë'] then 'e'
  else if c ∈ ['î', 'ï', 'Î', 'Ï'] then 'i'
  else if c ∈ ['ô', 'ö', 'Ô', 'Ö'] then 'o'
  else if c ∈ ['ù', 'û', 'ü', 'Ù', 'Û', 'Ü'] then 'u'
  else if c ∈ ['ç', 'Ç'] then 'c'
  else c

/-- Collation key: base lower-case letters, digits and spaces only. -/
def collatorKey (s : String) : List Char :=
  (s.toList.map (fun c => stripAccent c.toLower)).filter
    (fun c => c.isAlpha || c.isDigit || c = ' ')

/-- Three-way lexicographic comparison of character lists. -/
def cmpCharList : List Char → List Char → Int
  | [], [] => 0
  | [], _ :: _ => -1
  | _ :: _, [] => 1
  | a :: as, b :: bs =>
    if a.toNat < b.toNat then -1
    else if b.toNat < a.toNat then 1
    else cmpCharList as bs

/-- Concrete executable collator model (see stripAccent). -/
def frCollate (a b : String) : Int :=
  cmpCharList (collatorKey a) (collatorKey b)

/-! ## Layout engine (layout.js, buildFanLayout / buildHierarchicalLayout)

d3.hierarchy copies the children structure into a tree with no cycle
guard; here the copy is driven by a fuel argument (one more than the
number of people), which fully expands the hierarchy whenever the
children structure is acyclic.  On a cyclic children structure the
JavaScript recursion never terminates, while this model truncates; see
the C2 analysis. -/

/-- Hierarchy tree of node ids, as produced by d3.hierarchy over the
children accessor. -/
inductive HTree where
  | mk (id : String) (children : List HTree)
deriving Repr

/-- Root id of a hierarchy tree. -/
def HTree.id : HTree → String
  | .mk i _ => i

/-- Children of a hierarchy tree. -/
def HTree.children : HTree → List HTree
  | .mk _ c => c

mutual

/-- d3 node.height: greatest distance to a leaf. -/
def HTree.height : HTree → Nat
  | .mk _ cs => heightList cs

/-- Height helper over a list of subtrees. -/
def heightList : List HTree → Nat
  | [] => 0
  | t :: ts => Nat.max (t.height + 1) (heightList ts)

end

mutual

/-- Node ids of a tree in preorder (annotateBranch visit order). -/
def HTree.flatten : HTree → List String
  | .mk i cs => i :: flattenList cs

/-- Preorder flatten of a list of subtrees. -/
def flattenList : List HTree → List String
  | [] => []
  | t :: ts => t.flatten ++ flattenList ts

end

/-- Expand the children structure of a graph into a tree, stopping at
the given depth. -/
def buildSubtree (g : Graph) : Nat → String → HTree
  | 0, i => .mk i []
  | fuel + 1, i => .mk i ((g.childrenOf i).map (buildSubtree g fuel))

/-- Breadth-first traversal of a forest, keeping the d3.hierarchy depth
of every node; this is the order in which hierarchyRoot.each visits the
nodes.  Fuel bounds the number of levels. -/
def bfsSteps : Nat → List (HTree × Nat) → List (String × Nat)
  | 0, _ => []
  | _, [] => []
  | fuel + 1, q =>
    q.map (fun x => (x.1.id, x.2)) ++
      bfsSteps fuel (q.flatMap (fun x => x.1.children.map (fun c => (c, x.2 + 1))))

/-- Number of branch colours (BRANCH_COLORS). -/
def BRANCH_COLORS : Nat := 6

/-- annotateBranches: enumerate the virtual root's children and
propagate index mod BRANCH_COLORS to every descendant; a later
assignment overwrites an earlier one, as in the JavaScript recursion. -/
def branchAssignments (vchildren : List HTree) : List (String × Nat) :=
  vchildren.enum.flatMap
    (fun p => p.2.flatten.map (fun n => (n, p.1 % BRANCH_COLORS)))

/-- Branch index finally carried by a node id. -/
def branchFor (vchildren : List HTree) (i : String) : Option Nat :=
  ((branchAssignments vchildren).reverse.find? (fun a => a.1 = i)).map (fun a => a.2)

/-- assignGenerations for one node: the declared generation wins when it
parses, otherwise the non-negative hierarchy depth. -/
def generationFor (people : List Person) (i : String) (depth : Nat) : Int :=
  match parseGeneration (personForId people i).generation with
  | some d => d
  | none => (depth : Int)

/-- A laid-out node: hierarchy data plus Cartesian coordinates and, in
fan mode, the retained polar coordinates. -/
structure LayoutNode where
  id : String
  depth : Nat
  generation : Int
  branchIndex : Option Nat
  x : ℚ
  y : ℚ
  angle : Option ℚ
  radius : Option ℚ
deriving Repr, DecidableEq

/-- nodeById.get over the laid-out nodes. -/
def findLayoutNode (ns : List LayoutNode) (i : String) : Option LayoutNode :=
  ns.find? (fun n => n.id = i)

/-- A layout link: endpoint ids plus the literal coordinates captured at
layout time.  Coordinates are optional because the JavaScript reads
whatever fields the node object carries (undefined when a node was never
laid out, null for angle and radius in hierarchical mode). -/
structure Link where
  ltype : String
  context : Option String := none
  sourceId : String
  targetId : String
  sx : Option ℚ := none
  sy : Option ℚ := none
  sangle : Option ℚ := none
  sradius : Option ℚ := none
  tx : Option ℚ := none
  ty : Option ℚ := none
  tangle : Option ℚ := none
  tradius : Option ℚ := none
deriving Repr, DecidableEq

/-- Coordinate bounding box. -/
structure Bounds where
  minX : ℚ
  maxX : ℚ
  minY : ℚ
  maxY : ℚ
deriving Repr, DecidableEq

/-- Min / max statistics over a point list, with the Number.isFinite
fallback to 0 on an empty list. -/
def statsOf (pts : List (ℚ × ℚ)) : Bounds :=
  match pts with
  | [] => { minX := 0, maxX := 0, minY := 0, maxY := 0 }
  | p :: rest =>
    rest.foldl
      (fun b q =>
        { minX := min b.minX q.1, maxX := max b.maxX q.1,
          minY := min b.minY q.2, maxY := max b.maxY q.2 })
      { minX := p.1, maxX := p.1, minY := p.2, maxY := p.2 }

/-- buildHierarchicalLinks: one link per primary parent-child edge among
the laid-out nodes, with the endpoint coordinates of the moment. -/
def buildHierarchicalLinks (g : Graph) (ns : List LayoutNode) : List Link :=
  ns.flatMap (fun n =>
    (g.childrenOf n.id).map (fun cid =>
      let c := findLayoutNode ns cid
      { ltype := "parent-child", sourceId := n.id, targetId := cid,
        sx := some n.x, sy := some n.y, sangle := n.angle, sradius := n.radius,
        tx := c.map (fun m => m.x), ty := c.map (fun m => m.y),
        tangle := c.bind (fun m => m.angle), tradius := c.bind (fun m => m.radius) }))

/-- buildRelationshipLinks: keep a relationship when both endpoints were
laid out (have coordinates), dropping the rest. -/
def buildRelationshipLinks (ns : List LayoutNode) (rels : List Relationship) : List Link :=
  rels.filterMap (fun r =>
    match findLayoutNode ns r.source, findLayoutNode ns r.target with
    | some s, some t =>
      some { ltype := r.rtype, context := r.context,
             sourceId := s.id, targetId := t.id,
             sx := some s.x, sy := some s.y, sangle := s.angle, sradius := s.radius,
             tx := some t.x, ty := some t.y, tangle := t.angle, tradius := t.radius }
    | _, _ => none)

/-- Full layout snapshot returned by the layout engine.  width and
height are the dimensions object. -/
structure Layout where
  nodes : List LayoutNode
  hierarchicalLinks : List Link
  relationshipLinks : List Link
  width : ℚ
  height : ℚ
  bounds : Bounds
  mode : String
deriving Repr, DecidableEq

/-- DEFAULT_RADIAL_GAP. -/
def DEFAULT_RADIAL_GAP : ℚ := 220

/-- RADIAL_PADDING. -/
def RADIAL_PADDING : ℚ := 280

/-- NODE_BOUNDS_PADDING. -/
def NODE_BOUNDS_PADDING : ℚ := 32

/-- CARTESIAN_HORIZONTAL_PADDING. -/
def CARTESIAN_HORIZONTAL_PADDING : ℚ := 260

/-- CARTESIAN_VERTICAL_PADDING. -/
def CARTESIAN_VERTICAL_PADDING : ℚ := 200

/-- Deterministic model of the external radial d3.cluster geometry and
of the float constants and trigonometric functions used by
buildFanLayout: clusterPos radialLimit tree id is the (x, y) pair the
cluster layout assigns inside the hierarchy, fanStart models the float
FAN_START_ANGLE, halfPi models Math.PI / 2, and cosQ / sinQ model
Math.cos / Math.sin. -/
structure FanGeom where
  clusterPos : ℚ → HTree → String → ℚ × ℚ
  fanStart : ℚ
  halfPi : ℚ
  cosQ : ℚ → ℚ
  sinQ : ℚ → ℚ

/-- Deterministic model of the external d3.tree (Reingold-Tilford)
geometry used by buildHierarchicalLayout. -/
structure TreeGeom where
  treePos : HTree → String → ℚ × ℚ

/-- The virtual root's expanded subtrees for a graph (fuel covers every
acyclic hierarchy). -/
def virtualChildren (g : Graph) : List HTree :=
  g.rootIds.map (buildSubtree g (g.people.length + 1))

/-- The hierarchy nodes the layout traverses: ids with their
d3.hierarchy depth (starting at 1 below the virtual root), in
breadth-first order. -/
def layoutOrder (g : Graph) : List (String × Nat) :=
  bfsSteps (g.people.length + 3) ((virtualChildren g).map (fun t => (t, 1)))

/-- layout.js buildFanLayout, parametric in the external geometry. -/
def buildFanLayout (geom : FanGeom) (g : Graph) : Layout :=
  let vchildren := virtualChildren g
  let vtree := HTree.mk "__root__" vchildren
  let effectiveDepth : Nat := Nat.max 1 (vtree.height - 1)
  let radialLimit : ℚ := max DEFAULT_RADIAL_GAP ((effectiveDepth : ℚ) * DEFAULT_RADIAL_GAP)
  let canvasRadius := RADIAL_PADDING + radialLimit
  let nodes := (layoutOrder g).map (fun nd =>
    let pos := geom.clusterPos radialLimit vtree nd.1
    let angle := geom.fanStart + pos.1
    let radialDistance := RADIAL_PADDING + pos.2
    let polarAngle := angle - geom.halfPi
    { id := nd.1, depth := nd.2 - 1,
      generation := generationFor g.people nd.1 (nd.2 - 1),
      branchIndex := branchFor vchildren nd.1,
      x := canvasRadius + radialDistance * geom.cosQ polarAngle,
      y := canvasRadius + radialDistance * geom.sinQ polarAngle,
      angle := some angle, radius := some radialDistance })
  let stats := statsOf (nodes.map (fun n => (n.x, n.y)))
  { nodes := nodes,
    hierarchicalLinks := buildHierarchicalLinks g nodes,
    relationshipLinks := buildRelationshipLinks nodes
      (g.additionalRelationships ++ g.secondaryRelationships),
    width := canvasRadius * 2,
    height := canvasRadius * 2,
    bounds := { minX := stats.minX - NODE_BOUNDS_PADDING,
                minY := stats.minY - NODE_BOUNDS_PADDING,
                maxX := stats.maxX + NODE_BOUNDS_PADDING,
                maxY := stats.maxY + NODE_BOUNDS_PADDING },
    mode := "fan" }

/-- layout.js buildHierarchicalLayout, parametric in the external
geometry: the d3.tree coordinates are swapped into a horizontal
orientation, shifted by the padding offsets. -/
def buildHierarchicalLayout (geom : TreeGeom) (g : Graph) : Layout :=
  let vchildren := virtualChildren g
  let vtree := HTree.mk "__root__" vchildren
  let prelim := (layoutOrder g).map (fun nd =>
    let pos := geom.treePos vtree nd.1
    (nd.1, nd.2 - 1, pos.2, pos.1))
  let stats := statsOf (prelim.map (fun p => (p.2.2.1, p.2.2.2)))
  let spanX := max 1 (stats.maxX - stats.minX)
  let spanY := max 1 (stats.maxY - stats.minY)
  let offsetX := CARTESIAN_HORIZONTAL_PADDING - stats.minX
  let offsetY := CARTESIAN_VERTICAL_PADDING - stats.minY
  let nodes := prelim.map (fun p =>
    { id := p.1, depth := p.2.1,
      generation := generationFor g.people p.1 p.2.1,
      branchIndex := branchFor vchildren p.1,
      x := p.2.2.1 + offsetX, y := p.2.2.2 + offsetY,
      angle := none, radius := none })
  { nodes := nodes,
    hierarchicalLinks := buildHierarchicalLinks g nodes,
    relationshipLinks := buildRelationshipLinks nodes
      (g.additionalRelationships ++ g.secondaryRelationships),
    width := spanX + CARTESIAN_HORIZONTAL_PADDING * 2,
    height := spanY + CARTESIAN_VERTICAL_PADDING * 2,
    bounds := { minX := stats.minX + offsetX - NODE_BOUNDS_PADDING,
                maxX := stats.maxX + offsetX + NODE_BOUNDS_PADDING,
                minY := stats.minY + offsetY - NODE_BOUNDS_PADDING,
                maxY := stats.maxY + offsetY + NODE_BOUNDS_PADDING },
    mode := "hierarchical" }

/-- layout.js buildTreeLayout: build the graph, then lay it out in the
requested mode (any mode other than hierarchical selects fan). -/
def buildTreeLayout (coll : String → String → Int) (fanGeom : FanGeom)
    (treeGeom : TreeGeom) (individuals : List Person)
    (relationships : List Relationship) (mode : String) : Layout :=
  let graph := createGraph coll individuals relationships
  if mode = "hierarchical" then buildHierarchicalLayout treeGeom graph
  else buildFanLayout fanGeom graph

/-! ## Viewport controller (renderer.js)

The controller state is the current zoom transform together with the
highlighted node id.  Programmatic transforms set by applyTransform are
reported back verbatim through the zoom handler (d3 applies scaleExtent
only to user gestures), so applying a transform sets currentTransform to
exactly the built transform. -/

/-- ZOOM_EXTENT lower bound. -/
def ZOOM_MIN : ℚ := 12 / 100

/-- ZOOM_EXTENT upper bound. -/
def ZOOM_MAX : ℚ := 36

/-- FOCUS_MIN_SCALE. -/
def FOCUS_MIN_SCALE : ℚ := 21 / 10

/-- FOCUS_TARGET_SPAN. -/
def FOCUS_TARGET_SPAN : ℚ := 260

/-- A d3 zoom transform: scale and translation. -/
structure ZoomTransform where
  k : ℚ
  tx : ℚ
  ty : ℚ
deriving Repr, DecidableEq

/-- Renderer state: highlighted node and current transform. -/
structure RendererState where
  highlightedId : Option String
  transform : ZoomTransform
deriving Repr, DecidableEq

/-- getContainerSize: the measured container extent floored at 1 (the
JavaScript takes the max of several measurements of the same box and
the constant 1). -/
def getContainerSize (w h : ℚ) : ℚ × ℚ :=
  (max w 1, max h 1)

/-- The scale focusOnIndividual asks for before clamping: shorter
container side over FOCUS_TARGET_SPAN, falling back to FOCUS_MIN_SCALE
when the side is not a positive finite number (rationals are always
finite). -/
def desiredFocusScale (w h : ℚ) : ℚ :=
  let size := getContainerSize w h
  let shortestSide := min size.1 size.2
  if 0 < shortestSide then shortestSide / FOCUS_TARGET_SPAN else FOCUS_MIN_SCALE

/-- renderer.js focusOnIndividual: false and untouched state when the id
is not in the layout's node set; otherwise highlight the node and apply
the transform that centres it at a scale that is at least
FOCUS_MIN_SCALE, at least the desired focus scale, at least the current
scale, and at most ZOOM_MAX.  The animate flag only affects timing and
is not part of the state model. -/
def focusOnIndividual (ns : List LayoutNode) (w h : ℚ) (st : RendererState)
    (personId : String) : Bool × RendererState :=
  match findLayoutNode ns personId with
  | none => (false, st)
  | some node =>
    let size := getContainerSize w h
    let baseScale := max FOCUS_MIN_SCALE (desiredFocusScale w h)
    let targetScale := min ZOOM_MAX (max baseScale st.transform.k)
    let translateX := size.1 / 2 - node.x * targetScale
    let translateY := size.2 / 2 - node.y * targetScale
    (true,
      { highlightedId := some personId,
        transform := { k := targetScale, tx := translateX, ty := translateY } })

/-- renderer.js adjustZoom: multiply the scale by the factor about the
viewport centre, clamped to the zoom extent. -/
def adjustZoom (w h : ℚ) (st : RendererState) (factor : ℚ) : RendererState :=
  let size := getContainerSize w h
  let targetScale := max ZOOM_MIN (min ZOOM_MAX (st.transform.k * factor))
  let centerX := (size.1 / 2 - st.transform.tx) / st.transform.k
  let centerY := (size.2 / 2 - st.transform.ty) / st.transform.k
  { st with
    transform :=
      { k := targetScale,
        tx := size.1 / 2 - centerX * targetScale,
        ty := size.2 / 2 - centerY * targetScale } }

/-- A toolbar zoom call. -/
inductive ZoomOp where
  | zin
  | zout
deriving Repr, DecidableEq

/-- zoomIn and zoomOut with their fixed factors 1.25 and 0.8. -/
def applyZoomOp (w h : ℚ) (st : RendererState) : ZoomOp → RendererState
  | .zin => adjustZoom w h st (5 / 4)
  | .zout => adjustZoom w h st (4 / 5)

/-- A finite sequence of zoomIn / zoomOut calls. -/
def applyZoomOps (w h : ℚ) (st : RendererState) (ops : List ZoomOp) : RendererState :=
  ops.foldl (applyZoomOp w h) st

/-! ## Search matching (src/ui/search.js) -/

/-- Characters kept by the search normalisation (the regular expression
keeps letters, marks, numbers, whitespace, apostrophe and hyphen and
turns everything else into a space).  Combining marks do not occur
separately in this model because stripAccent already folds the
precomposed characters of the data set. -/
def isSearchKeepChar (c : Char) : Bool :=
  c.isAlpha || c.isDigit || c.isWhitespace || c.toNat == 39 || c = '-'

/-- Collapse every whitespace run into one space (the flag records
whether the previous character already was part of a collapsed run). -/
def collapseSpacesAux : List Char → Bool → List Char
  | [], _ => []
  | c :: rest, prevSpace =>
    if c.isWhitespace then
      if prevSpace then collapseSpacesAux rest true
      else ' ' :: collapseSpacesAux rest true
    else c :: collapseSpacesAux rest false

/-- Collapse every whitespace run into one space. -/
def collapseSpaces (cs : List Char) : List Char :=
  collapseSpacesAux cs false

/-- search.js normalizeText: empty for a falsy value, otherwise strip
diacritics, replace the other punctuation by spaces, collapse and trim
whitespace, and lower-case.  stripAccent models the NFD normalisation
plus diacritic removal for the character repertoire of the data set. -/
def normalizeText (s : String) : String :=
  if s = "" then ""
  else
    let stripped := s.toList.map stripAccent
    let replaced := stripped.map (fun c => if isSearchKeepChar c then c else ' ')
    let collapsed := collapseSpaces replaced
    let trimmed := (((collapsed.dropWhile (fun c => c = ' ')).reverse.dropWhile
      (fun c => c = ' ')).reverse)
    String.mk (trimmed.map Char.toLower)

/-- Does the second list start with the first one? -/
def leadingMatch : List Char → List Char → Bool
  | [], _ => true
  | _ :: _, [] => false
  | a :: as, b :: bs => a == b && leadingMatch as bs

/-- Does the needle occur starting at some position of the hay? -/
def includesFrom (needle : List Char) : List Char → Bool
  | [] => needle.isEmpty
  | c :: rest => leadingMatch needle (c :: rest) || includesFrom needle rest

/-- JavaScript String.includes as a substring test. -/
def strIncludes (hay needle : String) : Bool :=
  includesFrom needle.toList hay.toList

/-- A record handed to the search panel's update. -/
structure SearchRecord where
  id : String
  label : Option String := none
  dates : Option String := none
  firstName : Option String := none
  lastName : Option String := none
  birthDate : Option String := none
  birthPlace : Option String := none
deriving Repr, DecidableEq

/-- The [a, b].filter(Boolean).join(sep) idiom: falsy (missing or
empty) parts are dropped. -/
def joinParts (sep : String) (parts : List (Option String)) : String :=
  String.intercalate sep
    (parts.filterMap (fun p => match p with
      | some s => if s = "" then none else some s
      | none => none))

/-- Normalised token projection of a record (buildEntryTokens). -/
structure EntryTokens where
  lastName : String
  firstName : String
  birth : String
  combined : String
deriving Repr, DecidableEq

/-- search.js buildEntryTokens. -/
def buildEntryTokens (r : SearchRecord) : EntryTokens :=
  let nameParts := joinParts " " [r.firstName, r.lastName]
  let birthInfo := joinParts " " [r.birthDate, r.birthPlace]
  let combined := joinParts " " [r.label, r.dates, some birthInfo]
  { lastName := normalizeText (r.lastName.getD ""),
    firstName := normalizeText (r.firstName.getD ""),
    birth := normalizeText birthInfo,
    combined := normalizeText (if combined = "" then nameParts else combined) }

/-- A normalised query: the three optional criteria, empty when not
provided. -/
structure SearchQuery where
  lastName : String
  firstName : String
  birth : String
deriving Repr, DecidableEq

/-- getNormalizedQuery over already-trimmed raw field values. -/
def normalizeQuery (q : SearchQuery) : SearchQuery :=
  { lastName := normalizeText q.lastName,
    firstName := normalizeText q.firstName,
    birth := normalizeText q.birth }

/-- search.js matchesQuery: each provided criterion must pass its
normalised substring test; the birth criterion may match either the
birth token or the combined token. -/
def matchesQuery (e : EntryTokens) (q : SearchQuery) : Bool :=
  if q.lastName ≠ "" && !(strIncludes e.lastName q.lastName) then false
  else if q.firstName ≠ "" && !(strIncludes e.firstName q.firstName) then false
  else if q.birth ≠ "" &&
      !(strIncludes e.birth q.birth || strIncludes e.combined q.birth) then false
  else true

/-- The match list computed by executeSearch / handleInput. -/
def searchMatches (records : List SearchRecord) (q : SearchQuery) : List SearchRecord :=
  records.filter (fun r => matchesQuery (buildEntryTokens r) q)

/-! ## Derived notions used in the claim statements and proofs -/

/-- The primary parent createGraph elects for a candidate group. -/
def groupPrimary (coll : String → String → Int) (g : String × List PCEntry) : Option Person :=
  selectPrimaryParent (sortEntries coll g.2)

/-- Id of the elected primary parent of a group. -/
def groupPrimaryId (coll : String → String → Int) (g : String × List PCEntry) : Option String :=
  (groupPrimary coll g).map (fun p => p.id)

/-- The secondary relationships createGraph emits for a group. -/
def groupSecondaries (coll : String → String → Int) (g : String × List PCEntry) :
    List Relationship :=
  match groupPrimary coll g with
  | none => []
  | some pp =>
    ((sortEntries coll g.2).filter (fun e => e.parentNode.id != pp.id)).map (mkSecondary g.1)

/-- Provenance invariant of a grouped entry: it stems from a
parent-child relationship of the input whose endpoints resolved. -/
def EntryWF (people : List Person) (rels : List Relationship) (cid : String)
    (e : PCEntry) : Prop :=
  e.relation ∈ rels ∧ e.relation.rtype = "parent-child" ∧ e.relation.target = cid ∧
    lookupPerson people e.relation.source = some e.parentNode

/-- Well-formedness of the grouped entries: every key resolves, every
group is nonempty with well-formed entries, and keys are distinct. -/
def GroupsWF (people : List Person) (rels : List Relationship)
    (gs : List (String × List PCEntry)) : Prop :=
  (∀ g ∈ gs, (lookupPerson people g.1).isSome = true ∧ g.2 ≠ [] ∧
    ∀ e ∈ g.2, EntryWF people rels g.1 e) ∧ (gs.map Prod.fst).Nodup

/-- The primary-parent hierarchy edge relation of a built graph: p owns
c in its children list. -/
def ChildRel (g : Graph) (p c : String) : Prop :=
  c ∈ g.childrenOf p

/-- The raw parent-child relation of the input records. -/
def InputParentRel (rels : List Relationship) (p c : String) : Prop :=
  ∃ r ∈ rels, r.rtype = "parent-child" ∧ r.source = p ∧ r.target = c

/-- A relation has no cycle: no element reaches itself in one or more
steps. -/
def Acyclic (r : String → String → Prop) : Prop :=
  ∀ n, ¬ Relation.TransGen r n n

/-- A well-behaved collator: the at-most-0 comparisons form a total
preorder, which is what Array.prototype.sort needs from a consistent
comparator. -/
def CollValid (coll : String → String → Int) : Prop :=
  (∀ a b c, coll a b ≤ 0 → coll b c ≤ 0 → coll a c ≤ 0) ∧
    (∀ a b, coll a b ≤ 0 ∨ coll b a ≤ 0)

/-- The sibling ordering rule stated by the specification, on node ids:
ascending parseable generation first (a missing generation sorts after
any parseable one), collator order on the display labels otherwise. -/
def SiblingLe (coll : String → String → Int) (people : List Person) (i j : String) : Prop :=
  match parseGeneration (personForId people i).generation,
      parseGeneration (personForId people j).generation with
  | some gi, some gj =>
    gi < gj ∨ (gi = gj ∧
      coll (personLabel (personForId people i)) (personLabel (personForId people j)) ≤ 0)
  | some _, none => True
  | none, some _ => False
  | none, none =>
    coll (personLabel (personForId people i)) (personLabel (personForId people j)) ≤ 0

/-- The per-node projection used to compare two layout runs. -/
def layoutFingerprint (l : Layout) : List (String × ℚ × ℚ × Option ℚ × Option ℚ) :=
  l.nodes.map (fun n => (n.id, n.x, n.y, n.angle, n.radius))

/-- Generation finally displayed for an id in a layout. -/
def layoutGeneration (l : Layout) (i : String) : Option Int :=
  (findLayoutNode l.nodes i).map (fun n => n.generation)

/-! ## Concrete data used by counterexamples and witnesses -/

/-- Parent listed first in the concrete tie-break input. -/
def zoeP : Person := { id := "Zoe", name := some "Zoe" }

/-- Parent listed second in the concrete tie-break input. -/
def annaP : Person := { id := "Anna", name := some "Anna" }

/-- The child of the concrete tie-break input. -/
def childP : Person := { id := "C", name := some "Chris" }

/-- First parent-child record of the tie-break input. -/
def relZoeC : Relationship := { source := "Zoe", target := "C", rtype := "parent-child" }

/-- Second parent-child record of the tie-break input. -/
def relAnnaC : Relationship := { source := "Anna", target := "C", rtype := "parent-child" }

/-- Individuals of the tie-break input. -/
def tieIndividuals : List Person := [zoeP, annaP, childP]

/-- Relationships of the tie-break input: two parents for C, no male
gender, no generations, Zoe first in input order. -/
def tieRelationships : List Relationship := [relZoeC, relAnnaC]

/-- The single candidate group the tie-break input produces. -/
def tieEntries : List PCEntry :=
  [{ relation := relZoeC, parentNode := zoeP },
   { relation := relAnnaC, parentNode := annaP }]

/-- Individual A of the two-node inputs. -/
def aP : Person := { id := "A" }

/-- Individual B of the two-node inputs. -/
def bP : Person := { id := "B" }

/-- Parent-child record from A to B. -/
def relAB : Relationship := { source := "A", target := "B", rtype := "parent-child" }

/-- Parent-child record from B to A (closing the cycle). -/
def relBA : Relationship := { source := "B", target := "A", rtype := "parent-child" }

/-- The cyclic two-node input's graph. -/
def cycleGraph : Graph := createGraph frCollate [aP, bP] [relAB, relBA]

/-- Concrete stand-in for the external fan geometry, used when a claim
needs a concrete evaluated layout (the claims proved on it do not
depend on the geometry values). -/
def fanGeom0 : FanGeom :=
  { clusterPos := fun _ _ _ => (0, 0), fanStart := -157 / 60, halfPi := 157 / 100,
    cosQ := fun _ => 1, sinQ := fun _ => 0 }

/-- Concrete stand-in for the external tree geometry. -/
def treeGeom0 : TreeGeom :=
  { treePos := fun _ _ => (0, 0) }

/-- The layout of the two-individual scenario input, with the concrete
geometry stand-ins. -/
def scenarioLayout : Layout :=
  buildTreeLayout frCollate fanGeom0 treeGeom0 [aP, bP] [relAB] "fan"

/-- A concrete renderer state with a scale inside the zoom extent. -/
def state0 : RendererState :=
  { highlightedId := none, transform := { k := 1, tx := 0, ty := 0 } }

/-- Search record for Jean Herbaut. -/
def jeanRecord : SearchRecord :=
  { id := "jean-herbaut", label := some "Jean Herbaut",
    firstName := some "Jean", lastName := some "Herbaut" }

/-- Search record for Marie Dupont. -/
def marieRecord : SearchRecord :=
  { id := "marie-dupont", label := some "Marie Dupont",
    firstName := some "Marie", lastName := some "Dupont" }

/-- The two-record search index of the scenario. -/
def scenarioRecords : List SearchRecord := [jeanRecord, marieRecord]

/-- The indiscriminate collator (everything compares equal): the
simplest well-behaved collator, used to instantiate collator-generic
results. -/
def collTrivial : String → String → Int := fun _ _ => 0

/-! ## Lemmas about the grouping pass -/

/-- Keys after pushing an entry: unchanged when the child was grouped
before, extended at the end otherwise. -/
theorem addToGroups_keys (gs : List (String × List PCEntry)) (cid : String) (e : PCEntry) :
    (addToGroups gs cid e).map Prod.fst =
      if cid ∈ gs.map Prod.fst then gs.map Prod.fst else gs.map Prod.fst ++ [cid] := by
  induction gs with
  | nil => simp [addToGroups]
  | cons g rest ih =>
    cases g with
    | mk k es =>
      by_cases hk : k = cid
      · simp_all [addToGroups]
      · have hk2 : ¬ cid = k := fun h => hk h.symm
        simp only [addToGroups, if_neg hk, List.map_cons, ih]
        simp only [List.mem_cons]
        by_cases hmem : cid ∈ rest.map Prod.fst <;> simp [hk2, hmem]

/-- A predicate on keys is preserved by addToGroups. -/
theorem addToGroups_keyPred (P : String → Prop) (gs : List (String × List PCEntry))
    (cid : String) (e : PCEntry) (hall : ∀ g ∈ gs, P g.1) (hnew : P cid) :
    ∀ g ∈ addToGroups gs cid e, P g.1 := by
  induction gs with
  | nil => simpa [addToGroups] using hnew
  | cons g rest ih =>
    cases g with
    | mk k es =>
      intro g' hg'
      by_cases hk : k = cid
      · simp only [addToGroups, if_pos hk, List.mem_cons] at hg'
        rcases hg' with h | h
        · subst h; exact hall (k, es) (by simp)
        · exact hall g' (List.mem_cons_of_mem _ h)
      · simp only [addToGroups, if_neg hk, List.mem_cons] at hg'
        rcases hg' with h | h
        · subst h; exact hall (k, es) (by simp)
        · exact ih (fun g hg => hall g (List.mem_cons_of_mem _ hg)) g' h

/-- Groups stay nonempty under addToGroups. -/
theorem addToGroups_ne (gs : List (String × List PCEntry)) (cid : String) (e : PCEntry)
    (hall : ∀ g ∈ gs, g.2 ≠ []) : ∀ g ∈ addToGroups gs cid e, g.2 ≠ [] := by
  induction gs with
  | nil => simp [addToGroups]
  | cons g rest ih =>
    cases g with
    | mk k es =>
      by_cases hk : k = cid
      · intro g' hg'
        simp only [addToGroups, if_pos hk, List.mem_cons] at hg'
        rcases hg' with h | h
        · subst h; simp
        · exact hall g' (by simp [h])
      · intro g' hg'
        simp only [addToGroups, if_neg hk, List.mem_cons] at hg'
        rcases hg' with h | h
        · exact h ▸ hall (k, es) (by simp)
        · exact ih (fun g hg => hall g (by simp [hg])) g' h

/-- A per-entry predicate indexed by the group key is preserved by
addToGroups. -/
theorem addToGroups_entryPred (Q : String → PCEntry → Prop)
    (gs : List (String × List PCEntry)) (cid : String) (e : PCEntry)
    (hall : ∀ g ∈ gs, ∀ x ∈ g.2, Q g.1 x) (hnew : Q cid e) :
    ∀ g ∈ addToGroups gs cid e, ∀ x ∈ g.2, Q g.1 x := by
  induction gs with
  | nil => simpa [addToGroups] using hnew
  | cons g rest ih =>
    cases g with
    | mk k es =>
      intro g' hg' x hx
      by_cases hk : k = cid
      · simp only [addToGroups, if_pos hk, List.mem_cons] at hg'
        rcases hg' with h | h
        · subst h
          simp only [List.mem_append, List.mem_singleton] at hx
          rcases hx with hx | hx
          · exact hall (k, es) (by simp) x hx
          · subst hx hk; exact hnew
        · exact hall g' (List.mem_cons_of_mem _ h) x hx
      · simp only [addToGroups, if_neg hk, List.mem_cons] at hg'
        rcases hg' with h | h
        · subst h; exact hall (k, es) (by simp) x hx
        · exact ih (fun g hg => hall g (List.mem_cons_of_mem _ hg)) g' h x hx

/-- The relationships pass preserves group well-formedness. -/
theorem ingest_fold_wf (people : List Person) (rels : List Relationship)
    (rs : List Relationship) (acc : IngestAcc)
    (hsub : ∀ r ∈ rs, r ∈ rels) (hacc : GroupsWF people rels acc.groups) :
    GroupsWF people rels ((rs.foldl (ingestRelation people) acc)).groups := by
  induction rs generalizing acc with
  | nil => simpa using hacc
  | cons r rest ih =>
    refine ih _ (fun x hx => hsub x (List.mem_cons_of_mem _ hx)) ?_
    unfold ingestRelation
    by_cases h1 : r.source = "" ∨ r.target = ""
    · simpa [h1] using hacc
    · simp only [if_neg h1]
      cases hs : lookupPerson people r.source with
      | none => simpa using hacc
      | some sp =>
        cases ht : lookupPerson people r.target with
        | none => simpa using hacc
        | some tp =>
          by_cases h2 : r.rtype = "parent-child"
          · simp only [if_pos h2]
            obtain ⟨hall, hnd⟩ := hacc
            constructor
            · intro g hg
              refine ⟨?_, ?_, ?_⟩
              · exact addToGroups_keyPred (fun k => (lookupPerson people k).isSome = true)
                  acc.groups r.target _ (fun g hg => (hall g hg).1)
                  (show (lookupPerson people r.target).isSome = true by rw [ht]; rfl) g hg
              · exact addToGroups_ne acc.groups r.target _
                  (fun g hg => (hall g hg).2.1) g hg
              · exact addToGroups_entryPred (EntryWF people rels) acc.groups r.target _
                  (fun g hg => (hall g hg).2.2)
                  ⟨hsub r (List.mem_cons_self r rest), h2, rfl, hs⟩ g hg
            · rw [addToGroups_keys]
              by_cases hmem : r.target ∈ acc.groups.map Prod.fst
              · simpa [hmem] using hnd
              · simp [hmem, List.nodup_append, hnd]
          · simpa [h2] using hacc

/-- The candidate groups of an input are well formed. -/
theorem parentGroups_wf (individuals : List Person) (relationships : List Relationship) :
    GroupsWF (collectPeople individuals) relationships
      (parentGroups individuals relationships) := by
  refine ingest_fold_wf _ relationships relationships _ (fun r h => h) ?_
  exact ⟨fun g hg => absurd hg (List.not_mem_nil g), List.nodup_nil⟩

/-! ## Lemmas about primary-parent selection -/

/-- Pairwise from a member-wise relation. -/
theorem pairwise_of_mem {α : Type} {R : α → α → Prop} (l : List α)
    (h : ∀ a ∈ l, ∀ b ∈ l, R a b) : l.Pairwise R := by
  induction l with
  | nil => exact List.Pairwise.nil
  | cons x xs ih =>
    refine List.Pairwise.cons (fun b hb => h x (by simp) b (by simp [hb])) ?_
    exact ih (fun a ha b hb => h a (by simp [ha]) b (by simp [hb]))

/-- genLeB is reflexive. -/
theorem genLeB_refl (a : Option Int) : genLeB a a = true := by
  cases a <;> simp [genLeB]

/-- genLeB is transitive. -/
theorem genLeB_trans (a b c : Option Int) (h1 : genLeB a b = true)
    (h2 : genLeB b c = true) : genLeB a c = true := by
  cases a <;> cases b <;> cases c <;> simp_all [genLeB] <;> omega

/-- genLeB is total. -/
theorem genLeB_total (a b : Option Int) : genLeB a b = true ∨ genLeB b a = true := by
  cases a <;> cases b <;> simp [genLeB] <;> omega

/-- The sorted candidate list has the same members as the raw one. -/
theorem mem_sortEntries (coll : String → String → Int) (es : List PCEntry) (e : PCEntry) :
    e ∈ sortEntries coll es ↔ e ∈ es :=
  List.mem_insertionSort _

/-- Sorting candidates keeps nonemptiness. -/
theorem sortEntries_ne (coll : String → String → Int) (es : List PCEntry) (h : es ≠ []) :
    sortEntries coll es ≠ [] := by
  intro hcon
  rcases List.exists_mem_of_ne_nil es h with ⟨e, he⟩
  have := (mem_sortEntries coll es e).mpr he
  simp [hcon] at this

/-- selectPrimaryParent succeeds on a nonempty list. -/
theorem selectPrimaryParent_isSome (entries : List PCEntry) (h : entries ≠ []) :
    ∃ pp, selectPrimaryParent entries = some pp := by
  cases entries with
  | nil => exact absurd rfl h
  | cons e0 rest =>
    unfold selectPrimaryParent
    cases hf : (e0 :: rest).find? (fun e => isMaleGender e.parentNode.gender) with
    | some m => exact ⟨m.parentNode, rfl⟩
    | none => exact ⟨_, rfl⟩

/-- The elected primary parent is one of the candidates. -/
theorem selectPrimaryParent_mem (entries : List PCEntry) (pp : Person)
    (h : selectPrimaryParent entries = some pp) : ∃ e ∈ entries, e.parentNode = pp := by
  cases entries with
  | nil => simp [selectPrimaryParent] at h
  | cons e0 rest =>
    unfold selectPrimaryParent at h
    cases hf : (e0 :: rest).find? (fun e => isMaleGender e.parentNode.gender) with
    | some m =>
      rw [hf] at h
      exact ⟨m, List.mem_of_find?_eq_some hf, by injection h⟩
    | none =>
      rw [hf] at h
      simp only [Option.some.injEq] at h
      set ranked := List.insertionSort
        (fun a b => genLeB (parseGeneration a.parentNode.generation)
          (parseGeneration b.parentNode.generation) = true) (e0 :: rest) with hranked
      cases hr : ranked.head? with
      | none =>
        rw [hr] at h
        exact ⟨e0, by simp, h ▸ rfl⟩
      | some x =>
        rw [hr] at h
        refine ⟨x, ?_, h ▸ rfl⟩
        have hx : x ∈ ranked := List.mem_of_mem_head? (by rw [hr]; rfl)
        exact (List.mem_insertionSort _).mp (hranked ▸ hx)

/-- When some candidate is male, the elected primary parent is male. -/
theorem selectPrimaryParent_male (entries : List PCEntry) (pp : Person)
    (hex : ∃ e ∈ entries, isMaleGender e.parentNode.gender = true)
    (h : selectPrimaryParent entries = some pp) : isMaleGender pp.gender = true := by
  cases entries with
  | nil => rcases hex with ⟨e, he, _⟩; simp at he
  | cons e0 rest =>
    have hsome : ((e0 :: rest).find? (fun e => isMaleGender e.parentNode.gender)).isSome :=
      List.find?_isSome.mpr hex
    cases hf : (e0 :: rest).find? (fun e => isMaleGender e.parentNode.gender) with
    | none => rw [hf] at hsome; simp at hsome
    | some m =>
      unfold selectPrimaryParent at h
      rw [hf] at h
      have hm := List.find?_some hf
      have hpp : m.parentNode = pp := by injection h
      rw [← hpp]
      simpa using hm

/-- When no candidate is male, the elected primary parent has a
generation at most every candidate's generation (in the
missing-generations-last order). -/
theorem selectPrimaryParent_minGen (entries : List PCEntry) (pp : Person)
    (hno : ∀ e ∈ entries, ¬ isMaleGender e.parentNode.gender = true)
    (h : selectPrimaryParent entries = some pp) :
    ∀ e ∈ entries, genLeB (parseGeneration pp.generation)
      (parseGeneration e.parentNode.generation) = true := by
  cases entries with
  | nil => intro e he; simp at he
  | cons e0 rest =>
    have hf : (e0 :: rest).find? (fun e => isMaleGender e.parentNode.gender) = none :=
      List.find?_eq_none.mpr hno
    unfold selectPrimaryParent at h
    rw [hf] at h
    simp only [Option.some.injEq] at h
    haveI : IsTrans PCEntry (fun a b => genLeB (parseGeneration a.parentNode.generation)
        (parseGeneration b.parentNode.generation) = true) :=
      ⟨fun a b c h1 h2 => genLeB_trans _ _ _ h1 h2⟩
    haveI : IsTotal PCEntry (fun a b => genLeB (parseGeneration a.parentNode.generation)
        (parseGeneration b.parentNode.generation) = true) :=
      ⟨fun a b => genLeB_total _ _⟩
    have hpair : (List.insertionSort (fun a b =>
        genLeB (parseGeneration a.parentNode.generation)
          (parseGeneration b.parentNode.generation) = true) (e0 :: rest)).Pairwise
        (fun a b => genLeB (parseGeneration a.parentNode.generation)
          (parseGeneration b.parentNode.generation) = true) :=
      List.sorted_insertionSort _ (e0 :: rest)
    cases hms : List.insertionSort (fun a b =>
        genLeB (parseGeneration a.parentNode.generation)
          (parseGeneration b.parentNode.generation) = true) (e0 :: rest) with
    | nil =>
      have hlen := (List.perm_insertionSort (fun a b =>
        genLeB (parseGeneration a.parentNode.generation)
          (parseGeneration b.parentNode.generation) = true) (e0 :: rest)).length_eq
      rw [hms] at hlen
      simp at hlen
    | cons h0 t =>
      rw [hms] at h
      simp only [List.head?_cons, Option.getD_some] at h
      intro e he
      have hemem : e ∈ List.insertionSort (fun a b =>
          genLeB (parseGeneration a.parentNode.generation)
            (parseGeneration b.parentNode.generation) = true) (e0 :: rest) :=
        (List.mem_insertionSort _).mpr he
      rw [hms] at hemem hpair
      rcases List.mem_cons.mp hemem with heq | ht
      · subst heq
        exact h ▸ genLeB_refl _
      · have hrel := List.rel_of_pairwise_cons hpair ht
        rw [← h]
        exact hrel

/-- When no candidate is male and none has a parseable generation, the
first entry of the (already sorted) candidate list is elected. -/
theorem selectPrimaryParent_head (entries : List PCEntry) (pp : Person)
    (hno : ∀ e ∈ entries, ¬ isMaleGender e.parentNode.gender = true)
    (hgen : ∀ e ∈ entries, parseGeneration e.parentNode.generation = none)
    (h : selectPrimaryParent entries = some pp) :
    entries.head?.map (fun e => e.parentNode) = some pp := by
  cases entries with
  | nil => simp [selectPrimaryParent] at h
  | cons e0 rest =>
    have hf : (e0 :: rest).find? (fun e => isMaleGender e.parentNode.gender) = none :=
      List.find?_eq_none.mpr hno
    unfold selectPrimaryParent at h
    rw [hf] at h
    simp only [Option.some.injEq] at h
    have hsorted : List.Sorted
        (fun a b => (genLeB (parseGeneration a.parentNode.generation)
          (parseGeneration b.parentNode.generation)) = true) (e0 :: rest) := by
      refine pairwise_of_mem _ (fun a ha b hb => ?_)
      rw [hgen a ha, hgen b hb]; rfl
    rw [List.Sorted.insertionSort_eq hsorted] at h
    simp only [List.head?_cons, Option.getD_some] at h
    simp [h]

/-! ## Characterisation of the group-processing pass -/

/-- What the parentRelationsByChild.forEach pass computes, as a function
of the per-group elections: every processed child is appended to the
children list of its elected primary parent, its parents set becomes
exactly that primary parent, and the secondary relationships are the
concatenation of the per-group demotions. -/
theorem processGroups_spec (people : List Person) (coll : String → String → Int)
    (gs : List (String × List PCEntry)) (acc : BuildAcc)
    (hwf : ∀ g ∈ gs, (lookupPerson people g.1).isSome = true ∧ g.2 ≠ [])
    (hnd : (gs.map Prod.fst).Nodup)
    (hfree : ∀ g ∈ gs, (∀ p, g.1 ∉ acc.childrenOf p) ∧ acc.parentsOf g.1 = []) :
    (∀ p, (gs.foldl (processGroup people coll) acc).childrenOf p =
      acc.childrenOf p ++
        (gs.filter (fun g => decide (groupPrimaryId coll g = some p))).map Prod.fst) ∧
    (∀ c, (gs.foldl (processGroup people coll) acc).parentsOf c =
      (match gs.find? (fun g => decide (g.1 = c)) with
       | some g => (groupPrimaryId coll g).toList
       | none => acc.parentsOf c)) ∧
    (gs.foldl (processGroup people coll) acc).secondaries =
      acc.secondaries ++ gs.flatMap (groupSecondaries coll) := by
  induction gs generalizing acc with
  | nil => simp
  | cons g rest ih =>
    obtain ⟨cid, es⟩ := g
    obtain ⟨hlook, hne⟩ := hwf (cid, es) (by simp)
    obtain ⟨pp, hpp⟩ :=
      selectPrimaryParent_isSome _ (sortEntries_ne coll es hne)
    obtain ⟨sp, hsp⟩ := Option.isSome_iff_exists.mp hlook
    obtain ⟨hfc, hfp⟩ := hfree (cid, es) (by simp)
    have hmem : cid ∉ acc.childrenOf pp.id := hfc pp.id
    have hprimId : groupPrimaryId coll (cid, es) = some pp.id := by
      simp [groupPrimaryId, groupPrimary, hpp]
    have hchild : ∀ p, (processGroup people coll acc (cid, es)).childrenOf p =
        if p = pp.id then acc.childrenOf p ++ [cid] else acc.childrenOf p := by
      intro p
      unfold processGroup
      simp [hsp, hne, hpp, hmem]
    have hpar : ∀ c, (processGroup people coll acc (cid, es)).parentsOf c =
        if c = cid then [pp.id] else acc.parentsOf c := by
      intro c
      unfold processGroup
      simp only [hsp, Option.isNone_some, Bool.false_eq_true, if_false, hne, hpp, if_neg hmem]
      by_cases hc : c = cid <;> simp [hc, setAdd, hfp]
    have hsec : (processGroup people coll acc (cid, es)).secondaries =
        acc.secondaries ++ groupSecondaries coll (cid, es) := by
      unfold processGroup
      simp [hsp, hne, hpp, hmem, groupSecondaries, groupPrimary]
    have hndrest : (rest.map Prod.fst).Nodup := (List.nodup_cons.mp hnd).2
    have hcidnot : cid ∉ rest.map Prod.fst := (List.nodup_cons.mp hnd).1
    have hfree2 : ∀ g ∈ rest,
        (∀ p, g.1 ∉ (processGroup people coll acc (cid, es)).childrenOf p) ∧
          (processGroup people coll acc (cid, es)).parentsOf g.1 = [] := by
      intro g hg
      have hkey : g.1 ≠ cid := by
        intro hcon
        exact hcidnot (hcon ▸ List.mem_map_of_mem Prod.fst hg)
      constructor
      · intro p
        rw [hchild p]
        have hnotacc : g.1 ∉ acc.childrenOf p := (hfree g (List.mem_cons_of_mem _ hg)).1 p
        by_cases hp : p = pp.id
        · subst hp; simp [hnotacc, hkey]
        · simp [hp, hnotacc]
      · rw [hpar g.1, if_neg hkey]
        exact (hfree g (List.mem_cons_of_mem _ hg)).2
    obtain ⟨ihc, ihp, ihs⟩ := ih (processGroup people coll acc (cid, es))
      (fun g hg => hwf g (List.mem_cons_of_mem _ hg)) hndrest hfree2
    refine ⟨?_, ?_, ?_⟩
    · intro p
      rw [List.foldl_cons, ihc p, hchild p, List.filter_cons]
      by_cases hp : groupPrimaryId coll (cid, es) = some p
      · have hpid : p = pp.id := by
          rw [hprimId] at hp
          exact (Option.some.injEq _ _ ▸ hp).symm
        simp [hp, hpid, List.append_assoc]
      · have hpid : ¬ p = pp.id := by
          intro hcon
          exact hp (hcon ▸ hprimId)
        simp [hp, hpid]
    · intro c
      rw [List.foldl_cons, ihp c]
      by_cases hc : cid = c
      · subst hc
        have hre : rest.find? (fun g => decide (g.1 = cid)) = none := by
          rw [List.find?_eq_none]
          intro g hg hcon
          simp only [decide_eq_true_eq] at hcon
          exact hcidnot (hcon ▸ List.mem_map_of_mem Prod.fst hg)
        rw [hre]
        simp [List.find?_cons, hpar, hprimId]
      · have hfc2 : List.find? (fun g => decide (g.1 = c)) ((cid, es) :: rest) =
            List.find? (fun g => decide (g.1 = c)) rest := by
          rw [List.find?_cons]
          simp [hc]
        rw [hfc2]
        cases hfind : rest.find? (fun g => decide (g.1 = c)) with
        | some g0 => rfl
        | none => rw [hpar c, if_neg (fun hcon => hc hcon.symm)]
    · rw [List.foldl_cons, ihs, hsec, List.flatMap_cons, List.append_assoc]

/-- The children list createGraph returns for an id: the (sorted) child
ids of the groups whose elected primary parent is that id. -/
theorem createGraph_childrenOf (coll : String → String → Int) (inds : List Person)
    (rels : List Relationship) (p : String) :
    (createGraph coll inds rels).childrenOf p =
      List.insertionSort (fun a b => compareIds coll (collectPeople inds) a b ≤ 0)
        (((parentGroups inds rels).filter
          (fun g => decide (groupPrimaryId coll g = some p))).map Prod.fst) := by
  obtain ⟨hall, hnd⟩ := parentGroups_wf inds rels
  obtain ⟨hc, _, _⟩ := processGroups_spec (collectPeople inds) coll (parentGroups inds rels)
    { childrenOf := fun _ => [], parentsOf := fun _ => [], secondaries := [] }
    (fun g hg => ⟨(hall g hg).1, (hall g hg).2.1⟩) hnd
    (fun g hg => ⟨fun q => List.not_mem_nil _, rfl⟩)
  show List.insertionSort (fun a b => compareIds coll (collectPeople inds) a b ≤ 0)
    (((parentGroups inds rels).foldl (processGroup (collectPeople inds) coll)
      { childrenOf := fun _ => [], parentsOf := fun _ => [], secondaries := [] }).childrenOf
        p) = _
  rw [hc p]
  rfl

/-- The parents set createGraph returns for an id: exactly its elected
primary parent when the id heads a candidate group, empty otherwise. -/
theorem createGraph_parentsOf (coll : String → String → Int) (inds : List Person)
    (rels : List Relationship) (c : String) :
    (createGraph coll inds rels).parentsOf c =
      (match (parentGroups inds rels).find? (fun g => decide (g.1 = c)) with
       | some g => (groupPrimaryId coll g).toList
       | none => []) := by
  obtain ⟨hall, hnd⟩ := parentGroups_wf inds rels
  obtain ⟨_, hp, _⟩ := processGroups_spec (collectPeople inds) coll (parentGroups inds rels)
    { childrenOf := fun _ => [], parentsOf := fun _ => [], secondaries := [] }
    (fun g hg => ⟨(hall g hg).1, (hall g hg).2.1⟩) hnd
    (fun g hg => ⟨fun q => List.not_mem_nil _, rfl⟩)
  exact hp c

/-- The secondary relationships createGraph returns: the concatenation
of the per-group demotions. -/
theorem createGraph_secondaries (coll : String → String → Int) (inds : List Person)
    (rels : List Relationship) :
    (createGraph coll inds rels).secondaryRelationships =
      (parentGroups inds rels).flatMap (groupSecondaries coll) := by
  obtain ⟨hall, hnd⟩ := parentGroups_wf inds rels
  obtain ⟨_, _, hs⟩ := processGroups_spec (collectPeople inds) coll (parentGroups inds rels)
    { childrenOf := fun _ => [], parentsOf := fun _ => [], secondaries := [] }
    (fun g hg => ⟨(hall g hg).1, (hall g hg).2.1⟩) hnd
    (fun g hg => ⟨fun q => List.not_mem_nil _, rfl⟩)
  exact hs

/-- The ids of the deduplicated people list are distinct. -/
theorem collectPeople_ids_nodup (individuals : List Person) :
    ((collectPeople individuals).map (fun p => p.id)).Nodup := by
  suffices h : ∀ (acc : List Person), (acc.map (fun p => p.id)).Nodup →
      ((individuals.foldl
        (fun acc p => if p.id = "" ∨ acc.any (fun q => q.id = p.id) then acc else acc ++ [p])
        acc).map (fun p => p.id)).Nodup from
    h [] List.nodup_nil
  induction individuals with
  | nil => intro acc h; simpa using h
  | cons p rest ih =>
    intro acc h
    simp only [List.foldl_cons]
    by_cases hg : p.id = "" ∨ acc.any (fun q => q.id = p.id)
    · rw [if_pos hg]; exact ih acc h
    · rw [if_neg hg]
      refine ih (acc ++ [p]) ?_
      rw [List.map_append, List.map_singleton]
      rw [List.nodup_append]
      refine ⟨h, List.nodup_singleton _, ?_⟩
      intro x hx
      simp only [List.mem_singleton]
      intro hcon
      subst hcon
      rcases List.mem_map.mp hx with ⟨q, hq, hqid⟩
      push_neg at hg
      exact hg.2 (List.any_eq_true.mpr ⟨q, hq, by simpa using hqid⟩)

/-- The root list createGraph returns is a sorted sublist of the people
ids (the degenerate fallback takes all of them). -/
theorem createGraph_rootIds_sub (coll : String → String → Int) (inds : List Person)
    (rels : List Relationship) :
    ∃ base : List String, (createGraph coll inds rels).rootIds =
      List.insertionSort (fun a b => compareIds coll (collectPeople inds) a b ≤ 0) base ∧
      base.Sublist ((collectPeople inds).map (fun p => p.id)) := by
  refine ⟨_, rfl, ?_⟩
  dsimp only
  split
  · exact List.Sublist.refl _
  · exact (List.filter_sublist _).map _

/-! ## The sibling order -/

/-- The integer comparator agrees with the specification's sibling
rule. -/
theorem compareIds_le_iff (coll : String → String → Int) (people : List Person)
    (i j : String) : compareIds coll people i j ≤ 0 ↔ SiblingLe coll people i j := by
  unfold compareIds compareNodes SiblingLe
  rcases hgi : parseGeneration (personForId people i).generation with _ | gi <;>
    rcases hgj : parseGeneration (personForId people j).generation with _ | gj
  · exact Iff.rfl
  · simp
  · simp
  · by_cases hne : gi = gj
    · subst hne
      simp
    · simp only [if_pos (show gi ≠ gj from hne), hne]
      constructor
      · intro h
        exact Or.inl (by omega)
      · intro h
        rcases h with h | ⟨h, _⟩
        · omega
        · exact h.elim

/-- The sibling rule is transitive for a well-behaved collator. -/
theorem siblingLe_trans (coll : String → String → Int) (people : List Person)
    (hcv : CollValid coll) (i j k : String) (h1 : SiblingLe coll people i j)
    (h2 : SiblingLe coll people j k) : SiblingLe coll people i k := by
  unfold SiblingLe at h1 h2 ⊢
  rcases hgi : parseGeneration (personForId people i).generation with _ | gi <;>
    rcases hgj : parseGeneration (personForId people j).generation with _ | gj <;>
      rcases hgk : parseGeneration (personForId people k).generation with _ | gk <;>
        simp_all
  · exact hcv.1 _ _ _ h1 h2
  · rcases h1 with h1 | ⟨h1e, h1c⟩ <;> rcases h2 with h2 | ⟨h2e, h2c⟩
    · exact Or.inl (by omega)
    · exact Or.inl (by omega)
    · exact Or.inl (by omega)
    · exact Or.inr ⟨by omega, hcv.1 _ _ _ h1c h2c⟩

/-- The sibling rule is total for a well-behaved collator. -/
theorem siblingLe_total (coll : String → String → Int) (people : List Person)
    (hcv : CollValid coll) (i j : String) :
    SiblingLe coll people i j ∨ SiblingLe coll people j i := by
  unfold SiblingLe
  rcases hgi : parseGeneration (personForId people i).generation with _ | gi <;>
    rcases hgj : parseGeneration (personForId people j).generation with _ | gj <;> simp
  · exact hcv.2 _ _
  · rcases lt_trichotomy gi gj with h | h | h
    · exact Or.inl (Or.inl h)
    · subst h
      rcases hcv.2 (personLabel (personForId people i)) (personLabel (personForId people j))
        with hc | hc
      · exact Or.inl (Or.inr ⟨rfl, hc⟩)
      · exact Or.inr (Or.inr ⟨rfl, hc⟩)
    · exact Or.inr (Or.inl h)

/-- C6: For every node, its children list is sorted deterministically by
the rule: when both siblings have a declared (parseable) generation,
ascending by generation (ties falling back to the name comparison); a
sibling with unknown generation sorts after one with a known
generation; otherwise by the locale-aware, diacritic- and
punctuation-insensitive collator comparison of their names.  This holds
for the children of every node and for the virtual root's children
(rootIds), for every well-behaved collator. -/
theorem claim_children_sorted (coll : String → String → Int) (hcv : CollValid coll)
    (inds : List Person) (rels : List Relationship) :
    (∀ pid, ((createGraph coll inds rels).childrenOf pid).Pairwise
      (SiblingLe coll (collectPeople inds))) ∧
    (createGraph coll inds rels).rootIds.Pairwise (SiblingLe coll (collectPeople inds)) := by
  haveI : IsTrans String (fun a b => compareIds coll (collectPeople inds) a b ≤ 0) :=
    ⟨fun a b c h1 h2 => by
      rw [compareIds_le_iff] at h1 h2 ⊢
      exact siblingLe_trans coll (collectPeople inds) hcv a b c h1 h2⟩
  haveI : IsTotal String (fun a b => compareIds coll (collectPeople inds) a b ≤ 0) :=
    ⟨fun a b => by
      rw [compareIds_le_iff, compareIds_le_iff]
      exact siblingLe_total coll (collectPeople inds) hcv a b⟩
  have himp : ∀ {a b : String},
      compareIds coll (collectPeople inds) a b ≤ 0 →
      SiblingLe coll (collectPeople inds) a b := by
    intro a b h
    rw [compareIds_le_iff] at h
    exact h
  constructor
  · intro pid
    rw [createGraph_childrenOf]
    exact (List.sorted_insertionSort _ _).imp himp
  · obtain ⟨base, hb, _⟩ := createGraph_rootIds_sub coll inds rels
    rw [hb]
    exact (List.sorted_insertionSort _ _).imp himp

/-- Lexicographic character comparison is antisymmetric in sign. -/
theorem cmpCharList_swap : ∀ a b : List Char, cmpCharList a b = - cmpCharList b a
  | [], [] => by simp [cmpCharList]
  | [], _ :: _ => by simp [cmpCharList]
  | _ :: _, [] => by simp [cmpCharList]
  | a :: as, b :: bs => by
    have ih := cmpCharList_swap as bs
    simp only [cmpCharList]
    split_ifs <;> omega

/-- Lexicographic character comparison is transitive at or below
zero. -/
theorem cmpCharList_trans : ∀ a b c : List Char,
    cmpCharList a b ≤ 0 → cmpCharList b c ≤ 0 → cmpCharList a c ≤ 0
  | [], _, [], _, _ => by simp [cmpCharList]
  | [], _, _ :: _, _, _ => by simp [cmpCharList]
  | _ :: _, [], _, h1, _ => by simp [cmpCharList] at h1
  | _ :: _, _ :: _, [], _, h2 => by simp [cmpCharList] at h2
  | a :: as, b :: bs, c :: cs, h1, h2 => by
    simp only [cmpCharList] at h1 h2 ⊢
    split_ifs at h1 h2 ⊢ <;>
      first
        | omega
        | exact cmpCharList_trans as bs cs h1 h2

/-- The concrete French collator model is well behaved. -/
theorem frCollate_valid : CollValid frCollate := by
  constructor
  · intro a b c h1 h2
    exact cmpCharList_trans _ _ _ h1 h2
  · intro a b
    have hs := cmpCharList_swap (collatorKey a) (collatorKey b)
    unfold frCollate
    omega

/-- The sibling-order claim at the concrete collator model and a
concrete input. -/
theorem claim_children_sorted_witness :
    CollValid frCollate ∧
    ((∀ pid, ((createGraph frCollate tieIndividuals tieRelationships).childrenOf
        pid).Pairwise (SiblingLe frCollate (collectPeople tieIndividuals))) ∧
      (createGraph frCollate tieIndividuals tieRelationships).rootIds.Pairwise
        (SiblingLe frCollate (collectPeople tieIndividuals))) :=
  ⟨frCollate_valid,
    claim_children_sorted frCollate frCollate_valid tieIndividuals tieRelationships⟩

/-- C10: After the graph builder runs, no node id appears twice in any
children list (nor among the virtual root's children), for every
collator and every input — in particular when the same parent-child
relationship occurs several times. -/
theorem claim_children_nodup (coll : String → String → Int) (inds : List Person)
    (rels : List Relationship) :
    (∀ pid, ((createGraph coll inds rels).childrenOf pid).Nodup) ∧
    (createGraph coll inds rels).rootIds.Nodup := by
  constructor
  · intro pid
    rw [createGraph_childrenOf]
    refine ((List.perm_insertionSort _ _).nodup_iff).mpr ?_
    have hnd := (parentGroups_wf inds rels).2
    exact List.Nodup.sublist ((List.filter_sublist _).map Prod.fst) hnd
  · obtain ⟨base, hb, hsub⟩ := createGraph_rootIds_sub coll inds rels
    rw [hb]
    refine ((List.perm_insertionSort _ _).nodup_iff).mpr ?_
    exact List.Nodup.sublist hsub (collectPeople_ids_nodup inds)

/-! ## Primary-parent promotion (C1) -/

/-- With distinct keys, find? by key returns the unique group. -/
theorem find?_key_of_nodup (gs : List (String × List PCEntry)) (cid : String)
    (es : List PCEntry) (hnd : (gs.map Prod.fst).Nodup) (hmem : (cid, es) ∈ gs) :
    gs.find? (fun g => decide (g.1 = cid)) = some (cid, es) := by
  induction gs with
  | nil => simp at hmem
  | cons g rest ih =>
    rcases List.mem_cons.mp hmem with heq | hm
    · subst heq
      simp [List.find?_cons]
    · have hcid : cid ∈ rest.map Prod.fst :=
        List.mem_map.mpr ⟨(cid, es), hm, rfl⟩
      have hkey : ¬ g.1 = cid := by
        intro hcon
        exact (List.nodup_cons.mp hnd).1 (hcon ▸ hcid)
      rw [List.find?_cons]
      simp only [hkey, decide_eq_false, Bool.false_eq_true]
      exact ih (List.nodup_cons.mp hnd).2 hm

/-- With distinct keys, the entry list of a key is unique. -/
theorem key_unique (gs : List (String × List PCEntry)) (hnd : (gs.map Prod.fst).Nodup)
    (cid : String) (es es' : List PCEntry) (h1 : (cid, es) ∈ gs) (h2 : (cid, es') ∈ gs) :
    es = es' := by
  have ha := find?_key_of_nodup gs cid es hnd h1
  have hb := find?_key_of_nodup gs cid es' hnd h2
  rw [ha] at hb
  injection hb with hb
  injection hb

/-- Every secondary relationship of a group targets the group's
child. -/
theorem groupSecondaries_target (coll : String → String → Int)
    (g : String × List PCEntry) : ∀ r ∈ groupSecondaries coll g, r.target = g.1 := by
  unfold groupSecondaries
  cases groupPrimary coll g with
  | none => simp
  | some pp =>
    intro r hr
    rcases List.mem_map.mp hr with ⟨e, _, he⟩
    rw [← he]
    rfl

/-- Restricting the emitted secondary relationships to one child gives
exactly that child's group demotions. -/
theorem secondaries_filter_target (coll : String → String → Int)
    (gs : List (String × List PCEntry)) (cid : String) (es : List PCEntry)
    (hnd : (gs.map Prod.fst).Nodup) (hmem : (cid, es) ∈ gs) :
    (gs.flatMap (groupSecondaries coll)).filter (fun r => decide (r.target = cid)) =
      groupSecondaries coll (cid, es) := by
  induction gs with
  | nil => simp at hmem
  | cons g rest ih =>
    rw [List.flatMap_cons, List.filter_append]
    rcases List.mem_cons.mp hmem with heq | hm
    · subst heq
      have h1 : (groupSecondaries coll (cid, es)).filter
          (fun r => decide (r.target = cid)) = groupSecondaries coll (cid, es) := by
        rw [List.filter_eq_self]
        intro r hr
        simp [groupSecondaries_target coll (cid, es) r hr]
      have h2 : (rest.flatMap (groupSecondaries coll)).filter
          (fun r => decide (r.target = cid)) = [] := by
        rw [List.filter_eq_nil_iff]
        intro r hr
        rcases List.mem_flatMap.mp hr with ⟨g', hg', hrg⟩
        have ht := groupSecondaries_target coll g' r hrg
        have : ¬ g'.1 = cid := by
          intro hcon
          exact (List.nodup_cons.mp hnd).1
            (hcon ▸ List.mem_map.mpr ⟨g', hg', rfl⟩)
        simp [ht, this]
      rw [h1, h2, List.append_nil]
    · have hkey : ¬ g.1 = cid := by
        intro hcon
        exact (List.nodup_cons.mp hnd).1
          (hcon ▸ List.mem_map.mpr ⟨(cid, es), hm, rfl⟩)
      have h1 : (groupSecondaries coll g).filter
          (fun r => decide (r.target = cid)) = [] := by
        rw [List.filter_eq_nil_iff]
        intro r hr
        have ht := groupSecondaries_target coll g r hr
        simp [ht, hkey]
      rw [h1, List.nil_append]
      exact ih (List.nodup_cons.mp hnd).2 hm

/-- C1 (amended): For every child heading a candidate group with more
than one resolvable parent-child record, exactly one parent is promoted
to primary: the child's parents set is exactly the elected primary
parent, the child appears in that parent's children list and in no
other.  The election follows the priority: a male parent wins outright;
otherwise a parent with the minimal parseable generation (parents
without a parseable generation ranking last); otherwise the first
candidate of the compareNodes-sorted candidate list (not the first in
raw input order).  Every other candidate record becomes a secondary
relationship of type relationship whose context defaults to
secondary-parent. -/
theorem claim_primary_parent_selection (coll : String → String → Int)
    (inds : List Person) (rels : List Relationship) (cid : String) (es : List PCEntry)
    (hg : (cid, es) ∈ parentGroups inds rels) (hlen : 1 < es.length) :
    ∃ pp : Person,
      selectPrimaryParent (sortEntries coll es) = some pp ∧
      (∃ e ∈ es, e.parentNode = pp) ∧
      (createGraph coll inds rels).parentsOf cid = [pp.id] ∧
      cid ∈ (createGraph coll inds rels).childrenOf pp.id ∧
      (∀ q, cid ∈ (createGraph coll inds rels).childrenOf q → q = pp.id) ∧
      ((∃ e ∈ es, isMaleGender e.parentNode.gender = true) →
        isMaleGender pp.gender = true) ∧
      ((∀ e ∈ es, isMaleGender e.parentNode.gender = false) →
        ∀ e ∈ es, genLeB (parseGeneration pp.generation)
          (parseGeneration e.parentNode.generation) = true) ∧
      ((∀ e ∈ es, isMaleGender e.parentNode.gender = false) →
        (∀ e ∈ es, parseGeneration e.parentNode.generation = none) →
        (sortEntries coll es).head?.map (fun e => e.parentNode) = some pp) ∧
      (createGraph coll inds rels).secondaryRelationships.filter
          (fun r => decide (r.target = cid)) =
        ((sortEntries coll es).filter (fun e => e.parentNode.id != pp.id)).map
          (mkSecondary cid) := by
  have hne : es ≠ [] := by
    intro hcon
    rw [hcon] at hlen
    simp at hlen
  obtain ⟨pp, hpp⟩ := selectPrimaryParent_isSome _ (sortEntries_ne coll es hne)
  have hprimId : groupPrimaryId coll (cid, es) = some pp.id := by
    simp [groupPrimaryId, groupPrimary, hpp]
  obtain ⟨hall, hnd⟩ := parentGroups_wf inds rels
  refine ⟨pp, hpp, ?_, ?_, ?_, ?_, ?_, ?_, ?_, ?_⟩
  · obtain ⟨e, he, hepp⟩ := selectPrimaryParent_mem _ pp hpp
    exact ⟨e, (mem_sortEntries coll es e).mp he, hepp⟩
  · rw [createGraph_parentsOf, find?_key_of_nodup _ cid es hnd hg]
    show (groupPrimaryId coll (cid, es)).toList = [pp.id]
    rw [hprimId]
    rfl
  · rw [createGraph_childrenOf]
    rw [List.mem_insertionSort]
    exact List.mem_map.mpr ⟨(cid, es),
      List.mem_filter.mpr ⟨hg, by simp [hprimId]⟩, rfl⟩
  · intro q hq
    rw [createGraph_childrenOf, List.mem_insertionSort] at hq
    rcases List.mem_map.mp hq with ⟨g', hg', hfst⟩
    rcases List.mem_filter.mp hg' with ⟨hgmem, hgpred⟩
    obtain ⟨k, es'⟩ := g'
    have hk : k = cid := hfst
    subst hk
    have hes : es' = es := (key_unique _ hnd _ es' es hgmem hg).symm ▸ rfl
    rw [key_unique _ hnd _ es' es hgmem hg] at hgpred
    rw [decide_eq_true_eq, hprimId] at hgpred
    injection hgpred.symm
  · intro hex
    refine selectPrimaryParent_male _ pp ?_ hpp
    rcases hex with ⟨e, he, hm⟩
    exact ⟨e, (mem_sortEntries coll es e).mpr he, hm⟩
  · intro hno e he
    refine selectPrimaryParent_minGen _ pp ?_ hpp e ((mem_sortEntries coll es e).mpr he)
    intro e' he'
    rw [hno e' ((mem_sortEntries coll es e').mp he')]
    simp
  · intro hno hgen
    refine selectPrimaryParent_head _ pp ?_ ?_ hpp
    · intro e' he'
      rw [hno e' ((mem_sortEntries coll es e').mp he')]
      simp
    · intro e' he'
      exact hgen e' ((mem_sortEntries coll es e').mp he')
  · rw [createGraph_secondaries, secondaries_filter_target coll _ cid es hnd hg]
    simp [groupSecondaries, groupPrimary, hpp]

/-- C1 counterexample: with two resolvable parents Zoe (first in input
order) and Anna for child C — no male gender, no generations, so the
claim's tie-break (c) applies — the code promotes Anna, the collation-
first parent, not Zoe, the input-first parent, and demotes Zoe to a
secondary relationship. -/
theorem claim_primary_parent_counterexample :
    tieRelationships.map (fun r => r.source) = ["Zoe", "Anna"] ∧
    (createGraph frCollate tieIndividuals tieRelationships).parentsOf "C" = ["Anna"] ∧
    (createGraph frCollate tieIndividuals tieRelationships).childrenOf "Anna" = ["C"] ∧
    (createGraph frCollate tieIndividuals tieRelationships).childrenOf "Zoe" = [] ∧
    (createGraph frCollate tieIndividuals tieRelationships).secondaryRelationships =
      [{ source := "Zoe", target := "C", rtype := "relationship",
         context := some "secondary-parent" }] := by
  refine ⟨?_, ?_, ?_, ?_, ?_⟩ <;> decide

/-- Hypotheses of the amended C1 claim hold at the concrete tie-break
input, and its conclusion follows by the theorem. -/
theorem claim_primary_parent_selection_witness :
    (("C", tieEntries) ∈ parentGroups tieIndividuals tieRelationships ∧
      1 < tieEntries.length) ∧
    (∃ pp : Person,
      selectPrimaryParent (sortEntries frCollate tieEntries) = some pp ∧
      (∃ e ∈ tieEntries, e.parentNode = pp) ∧
      (createGraph frCollate tieIndividuals tieRelationships).parentsOf "C" = [pp.id] ∧
      "C" ∈ (createGraph frCollate tieIndividuals tieRelationships).childrenOf pp.id ∧
      (∀ q, "C" ∈ (createGraph frCollate tieIndividuals tieRelationships).childrenOf q →
        q = pp.id) ∧
      ((∃ e ∈ tieEntries, isMaleGender e.parentNode.gender = true) →
        isMaleGender pp.gender = true) ∧
      ((∀ e ∈ tieEntries, isMaleGender e.parentNode.gender = false) →
        ∀ e ∈ tieEntries, genLeB (parseGeneration pp.generation)
          (parseGeneration e.parentNode.generation) = true) ∧
      ((∀ e ∈ tieEntries, isMaleGender e.parentNode.gender = false) →
        (∀ e ∈ tieEntries, parseGeneration e.parentNode.generation = none) →
        (sortEntries frCollate tieEntries).head?.map (fun e => e.parentNode) = some pp) ∧
      (createGraph frCollate tieIndividuals tieRelationships).secondaryRelationships.filter
          (fun r => decide (r.target = "C")) =
        ((sortEntries frCollate tieEntries).filter (fun e => e.parentNode.id != pp.id)).map
          (mkSecondary "C")) :=
  ⟨⟨by decide, by decide⟩,
    claim_primary_parent_selection frCollate tieIndividuals tieRelationships "C" tieEntries
      (by decide) (by decide)⟩

/-! ## Cycles in the derived hierarchy (C2) -/

/-- A resolved lookup returns the person carrying the looked-up id. -/
theorem lookupPerson_id (people : List Person) (i : String) (q : Person)
    (h : lookupPerson people i = some q) : q.id = i := by
  have := List.find?_some h
  simpa using this

/-- Every derived hierarchy edge comes from an input parent-child
relationship. -/
theorem childRel_sub_input (coll : String → String → Int) (inds : List Person)
    (rels : List Relationship) (p c : String)
    (h : ChildRel (createGraph coll inds rels) p c) : InputParentRel rels p c := by
  unfold ChildRel at h
  rw [createGraph_childrenOf, List.mem_insertionSort] at h
  rcases List.mem_map.mp h with ⟨g, hgf, hfst⟩
  rcases List.mem_filter.mp hgf with ⟨hgmem, hpred⟩
  rw [decide_eq_true_eq] at hpred
  obtain ⟨k, es⟩ := g
  have hk : k = c := hfst
  subst hk
  have hpp : ∃ pp, selectPrimaryParent (sortEntries coll es) = some pp ∧ pp.id = p := by
    unfold groupPrimaryId groupPrimary at hpred
    cases hgp : selectPrimaryParent (sortEntries coll es) with
    | none => rw [hgp] at hpred; simp at hpred
    | some pp =>
      rw [hgp] at hpred
      simp at hpred
      exact ⟨pp, rfl, hpred⟩
  obtain ⟨pp, hsel, hppid⟩ := hpp
  obtain ⟨e, hes, hepp⟩ := selectPrimaryParent_mem _ pp hsel
  have hemem : e ∈ es := (mem_sortEntries coll es e).mp hes
  obtain ⟨hall, hnd⟩ := parentGroups_wf inds rels
  obtain ⟨hrel, htype, htarget, hsource⟩ := (hall (k, es) hgmem).2.2 e hemem
  refine ⟨e.relation, hrel, htype, ?_, htarget⟩
  rw [← hppid, ← hepp]
  exact (lookupPerson_id _ _ _ hsource).symm

/-- On inputs whose parent-child relationships are acyclic, the derived
hierarchy is acyclic as well (each node can then be visited exactly once
per structural pass). -/
theorem hierarchy_acyclic_of_input_acyclic (coll : String → String → Int)
    (inds : List Person) (rels : List Relationship)
    (h : Acyclic (InputParentRel rels)) :
    Acyclic (ChildRel (createGraph coll inds rels)) := by
  intro n hn
  exact h n (Relation.TransGen.mono (fun a b => childRel_sub_input coll inds rels a b) hn)

/-- C2 fails on the code: feeding the cyclic two-node input (A parent of
B, B parent of A) through the graph builder produces a children
structure with the cycle A to B to A, so the derived hierarchy is not
acyclic and the structural recursions of the layout (annotateBranch,
d3.hierarchy) revisit nodes forever on this input.  The fuel-based tree
expansion used by the Lean model is total, but the cycle below is
exactly the witness that the JavaScript recursion has no base case to
reach. -/
theorem claim_hierarchy_cycle :
    ChildRel cycleGraph "A" "B" ∧ ChildRel cycleGraph "B" "A" ∧
      ¬ Acyclic (ChildRel cycleGraph) := by
  have hab : ChildRel cycleGraph "A" "B" := by
    show "B" ∈ cycleGraph.childrenOf "A"
    decide
  have hba : ChildRel cycleGraph "B" "A" := by
    show "A" ∈ cycleGraph.childrenOf "B"
    decide
  refine ⟨hab, hba, ?_⟩
  intro h
  exact h "A" (Relation.TransGen.tail (Relation.TransGen.single hab) hba)

/-! ## Layout determinism and the two-person scenario (C4, C7) -/

/-- C4: the layout engine is a pure function of the dataset, the mode
and the (deterministic) external geometry: running it twice on equal
inputs yields identical coordinates — and identical angle and radius in
fan mode — for every node.  The embedding makes all sources of
nondeterminism explicit parameters; none remain. -/
theorem claim_layout_deterministic (coll : String → String → Int) (fanGeom : FanGeom)
    (treeGeom : TreeGeom) (i1 i2 : List Person) (r1 r2 : List Relationship)
    (m1 m2 : String) (hi : i1 = i2) (hr : r1 = r2) (hm : m1 = m2) :
    layoutFingerprint (buildTreeLayout coll fanGeom treeGeom i1 r1 m1) =
      layoutFingerprint (buildTreeLayout coll fanGeom treeGeom i2 r2 m2) := by
  subst hi
  subst hr
  subst hm
  rfl

/-- Determinism instantiated at the concrete two-person input. -/
theorem claim_layout_deterministic_witness :
    (([aP, bP] : List Person) = [aP, bP] ∧ ([relAB] : List Relationship) = [relAB] ∧
      "fan" = "fan") ∧
    layoutFingerprint (buildTreeLayout frCollate fanGeom0 treeGeom0 [aP, bP] [relAB] "fan") =
      layoutFingerprint (buildTreeLayout frCollate fanGeom0 treeGeom0 [aP, bP] [relAB] "fan") :=
  ⟨⟨rfl, rfl, rfl⟩,
    claim_layout_deterministic frCollate fanGeom0 treeGeom0 [aP, bP] [aP, bP]
      [relAB] [relAB] "fan" "fan" rfl rfl rfl⟩

/-- C7: on the input with individuals A (no parents) and B and the
single relationship A parent of B, the fan layout — whatever the
external geometry — contains exactly one hierarchical link, from A to
B, no secondary relationships (neither in the graph nor as rendered
relationship links), and B's derived generation is A's plus one. -/
theorem claim_two_person_scenario (geom : FanGeom) :
    (buildTreeLayout frCollate geom treeGeom0 [aP, bP] [relAB] "fan").hierarchicalLinks.map
      (fun l => (l.sourceId, l.targetId)) = [("A", "B")] ∧
    (buildTreeLayout frCollate geom treeGeom0 [aP, bP] [relAB] "fan").relationshipLinks = [] ∧
    (createGraph frCollate [aP, bP] [relAB]).secondaryRelationships = [] ∧
    (∃ gA : Int,
      layoutGeneration (buildTreeLayout frCollate geom treeGeom0 [aP, bP] [relAB] "fan") "A" =
        some gA ∧
      layoutGeneration (buildTreeLayout frCollate geom treeGeom0 [aP, bP] [relAB] "fan") "B" =
        some (gA + 1)) :=
  ⟨rfl, rfl, by decide, ⟨0, rfl, rfl⟩⟩

/-! ## Viewport claims (C3, C5, C8) -/

/-- C3: focusOnIndividual on an id absent from the layout's node set
returns false and leaves the whole renderer state — transform and
highlighted node — unchanged. -/
theorem claim_focus_unknown_id (ns : List LayoutNode) (w h : ℚ) (st : RendererState)
    (pid : String) (hnone : findLayoutNode ns pid = none) :
    focusOnIndividual ns w h st pid = (false, st) := by
  unfold focusOnIndividual
  rw [hnone]

/-- The unknown-id behaviour at a concretely built layout. -/
theorem claim_focus_unknown_id_witness :
    findLayoutNode scenarioLayout.nodes "unknown-id" = none ∧
    focusOnIndividual scenarioLayout.nodes 800 600 state0 "unknown-id" = (false, state0) :=
  ⟨by decide,
    claim_focus_unknown_id scenarioLayout.nodes 800 600 state0 "unknown-id" (by decide)⟩

/-- C5: starting from any state whose scale lies in the zoom extent,
any finite sequence of zoomIn / zoomOut calls leaves the scale inside
the configured extent. -/
theorem claim_zoom_clamped (w h : ℚ) (st : RendererState) (ops : List ZoomOp)
    (hst : ZOOM_MIN ≤ st.transform.k ∧ st.transform.k ≤ ZOOM_MAX) :
    ZOOM_MIN ≤ (applyZoomOps w h st ops).transform.k ∧
      (applyZoomOps w h st ops).transform.k ≤ ZOOM_MAX := by
  induction ops generalizing st with
  | nil => simpa [applyZoomOps] using hst
  | cons op rest ih =>
    have hminmax : ZOOM_MIN ≤ ZOOM_MAX := by norm_num [ZOOM_MIN, ZOOM_MAX]
    have hstep : ZOOM_MIN ≤ (applyZoomOp w h st op).transform.k ∧
        (applyZoomOp w h st op).transform.k ≤ ZOOM_MAX := by
      cases op <;>
        exact ⟨le_max_left _ _, max_le hminmax (min_le_left _ _)⟩
    exact ih (applyZoomOp w h st op) hstep

/-- The zoom clamp at a concrete state and operation sequence. -/
theorem claim_zoom_clamped_witness :
    (ZOOM_MIN ≤ state0.transform.k ∧ state0.transform.k ≤ ZOOM_MAX) ∧
    (ZOOM_MIN ≤ (applyZoomOps 800 600 state0
        [ZoomOp.zin, ZoomOp.zin, ZoomOp.zout]).transform.k ∧
      (applyZoomOps 800 600 state0
        [ZoomOp.zin, ZoomOp.zin, ZoomOp.zout]).transform.k ≤ ZOOM_MAX) :=
  ⟨⟨by norm_num [ZOOM_MIN, state0], by norm_num [ZOOM_MAX, state0]⟩,
    claim_zoom_clamped 800 600 state0 [ZoomOp.zin, ZoomOp.zin, ZoomOp.zout]
      ⟨by norm_num [ZOOM_MIN, state0], by norm_num [ZOOM_MAX, state0]⟩⟩

/-- C8: whenever focusOnIndividual succeeds (and the current scale is
inside the zoom extent, which every transform the controller applies
guarantees), the applied scale never scales down from the current zoom
level and is at least the focus floor: the desired scale (shorter
viewport side over the target span) raised to the configured minimum
and clamped to the zoom extent. -/
theorem claim_focus_scale_floor (ns : List LayoutNode) (w h : ℚ) (st : RendererState)
    (pid : String) (hk : st.transform.k ≤ ZOOM_MAX)
    (hs : (focusOnIndividual ns w h st pid).1 = true) :
    st.transform.k ≤ (focusOnIndividual ns w h st pid).2.transform.k ∧
      min ZOOM_MAX (max FOCUS_MIN_SCALE (desiredFocusScale w h)) ≤
        (focusOnIndividual ns w h st pid).2.transform.k := by
  cases hfind : findLayoutNode ns pid with
  | none =>
    unfold focusOnIndividual at hs
    rw [hfind] at hs
    simp at hs
  | some node =>
    unfold focusOnIndividual
    rw [hfind]
    dsimp only
    constructor
    · exact le_min hk (le_max_right _ _)
    · exact min_le_min (le_refl _) (le_max_left _ _)

/-- The focus-scale bound at a concrete state and layout. -/
theorem claim_focus_scale_floor_witness :
    (state0.transform.k ≤ ZOOM_MAX ∧
      (focusOnIndividual scenarioLayout.nodes 800 600 state0 "A").1 = true) ∧
    (state0.transform.k ≤
        (focusOnIndividual scenarioLayout.nodes 800 600 state0 "A").2.transform.k ∧
      min ZOOM_MAX (max FOCUS_MIN_SCALE (desiredFocusScale 800 600)) ≤
        (focusOnIndividual scenarioLayout.nodes 800 600 state0 "A").2.transform.k) :=
  ⟨⟨by norm_num [state0, ZOOM_MAX], rfl⟩,
    claim_focus_scale_floor scenarioLayout.nodes 800 600 state0 "A"
      (by norm_num [state0, ZOOM_MAX]) rfl⟩

/-! ## Search matching (C9) -/

/-- C9: matching is conjunctive across the provided normalised criteria
— each provided field must pass its normalised substring test, the
birth criterion also matching against the combined token — and the
scenario query for the surname Herbaut against the two-record index
returns exactly the Jean Herbaut record. -/
theorem claim_search_matching :
    (∀ (e : EntryTokens) (q : SearchQuery), matchesQuery e q = true ↔
      ((q.lastName ≠ "" → strIncludes e.lastName q.lastName = true) ∧
       (q.firstName ≠ "" → strIncludes e.firstName q.firstName = true) ∧
       (q.birth ≠ "" →
         (strIncludes e.birth q.birth || strIncludes e.combined q.birth) = true))) ∧
    (searchMatches scenarioRecords
      (normalizeQuery { lastName := "Herbaut", firstName := "", birth := "" })).map
        (fun r => r.id) = ["jean-herbaut"] := by
  constructor
  · intro e q
    unfold matchesQuery
    split_ifs with h1 h2 h3 <;> simp_all
    intro hb
    by_cases hx : strIncludes e.birth q.birth = true
    · exact Or.inl hx
    · exact Or.inr (h3 hb (by simpa using hx))
  · decide

end HerbautArbre
